import Mathlib

/-!
Verification development for a small sentiment-classification pipeline:
TF-IDF vectorization, a deterministic train/test split, a Multinomial
Naive Bayes trainer and its predictor.  The file of the repository is a
notebook that drives library implementations of these components, so the
components themselves are modelled here from the specification.
-/

namespace SentimentPipeline

/-- Error taxonomy of the specification. -/
inductive Err where
  | inputError
  | notFittedError
deriving DecidableEq, Repr

/-- Modelled from the spec: a Document is modelled by its token list after
lower-casing, punctuation stripping and stopword filtering; the concrete
tokenizer and the fixed English stopword list live outside the repository. -/
abbrev Doc := List String

/-- Modelled from the spec (Vocabulary Builder): each distinct surviving term
gets a stable index in first-seen order. -/
def vocabOf (corpus : List Doc) : List String :=
  corpus.flatten.dedup

/-- Modelled from the spec: document frequency of a term, the number of
documents containing the term at least once. -/
def df (corpus : List Doc) (t : String) : Nat :=
  (corpus.filter (fun d => decide (t ∈ d))).length

/-- State of a fitted vectorizer: the vocabulary, the number of training
documents and the per-term document frequencies, aligned with the vocabulary. -/
structure FittedVectorizer where
  vocab : List String
  nDocs : Nat
  dfs : List Nat
deriving Repr

/-- Modelled from the spec (TF-IDF Vectorizer `fit`): delegates to the
Vocabulary Builder; fails with `InputError` on an empty corpus or an empty
vocabulary. -/
def fitVectorizer (corpus : List Doc) : Except Err FittedVectorizer :=
  if corpus = [] ∨ vocabOf corpus = [] then .error .inputError
  else .ok { vocab := vocabOf corpus
             nDocs := corpus.length
             dfs := (vocabOf corpus).map (df corpus) }

/-- Modelled from the spec: inverse document frequency of the i-th vocabulary
term, `ln ((1 + N) / (1 + df)) + 1`. -/
noncomputable def idfOf (f : FittedVectorizer) (i : Nat) : ℝ :=
  Real.log ((1 + f.nDocs) / (1 + f.dfs.getD i 0)) + 1

/-- Modelled from the spec: raw per-document weights, term frequency times idf,
one entry per vocabulary term. -/
noncomputable def rawWeights (f : FittedVectorizer) (d : Doc) : List ℝ :=
  (List.range f.vocab.length).map
    (fun i => (d.count (f.vocab.getD i "") : ℝ) * idfOf f i)

/-- Euclidean norm of a vector. -/
noncomputable def l2norm (v : List ℝ) : ℝ :=
  Real.sqrt ((v.map (fun x => x * x)).sum)

/-- Modelled from the spec (TF-IDF Vectorizer `transform` on one document):
L2-normalize the raw weights unless their norm is zero, in which case the
vector stays all-zero. -/
noncomputable def transform1 (f : FittedVectorizer) (d : Doc) : List ℝ :=
  let w := rawWeights f d
  if l2norm w = 0 then w else w.map (fun x => x / l2norm w)

/-- Modelled from the spec (Splitter): the spec requires a seeded pseudorandom
permutation but fixes no generator; a 64-bit linear congruential step is used. -/
def lcgNext (s : Nat) : Nat :=
  (6364136223846793005 * s + 1442695040888963407) % 18446744073709551616

/-- Seeded shuffle by repeated selection: draw an index from the current state,
move that element to the front of the output, recurse on the rest. -/
def shuffleGo (s : Nat) (l : List Nat) : List Nat :=
  match l with
  | [] => []
  | a :: rest =>
      let j := s % (a :: rest).length
      (a :: rest).getD j 0 :: shuffleGo (lcgNext s) ((a :: rest).eraseIdx j)
termination_by l.length
decreasing_by
  simp [List.length_eraseIdx, Nat.mod_lt]

/-- Modelled from the spec: the seeded pseudorandom permutation of the index
range used by the Splitter. -/
def permOf (n seed : Nat) : List Nat :=
  shuffleGo seed (List.range n)

/-- Modelled from the spec: the number of train positions,
`round (n * (1 - ratio))`. -/
def trainSize (n : Nat) (ratio : ℚ) : Nat :=
  (round ((n : ℚ) * (1 - ratio))).toNat

/-- Modelled from the spec (Splitter `split`): the first `round (n * (1 - ratio))`
positions of the seeded permutation become the train set, the remainder the test
set; a ratio outside (0,1) or n < 2 fails with `InputError`. -/
def split (n : Nat) (ratio : ℚ) (seed : Nat) : Except Err (List Nat × List Nat) :=
  if 2 ≤ n ∧ 0 < ratio ∧ ratio < 1 then
    .ok ((permOf n seed).take (trainSize n ratio), (permOf n seed).drop (trainSize n ratio))
  else .error .inputError

/-- A trained Naive Bayes model: the distinct classes, their priors and the
per-class per-term conditional log-probability table. -/
structure Model where
  classes : List Nat
  priors : List ℝ
  featLogProb : List (List ℝ)

/-- Modelled from the spec (Trainer): `W (t, c)`, the accumulated weight of the
i-th term across all class-c training documents. -/
noncomputable def W (vecs : List (List ℝ)) (labels : List Nat) (c : Nat) (i : Nat) : ℝ :=
  (((vecs.zip labels).filter (fun p => decide (p.2 = c))).map (fun p => p.1.getD i 0)).sum

/-- Modelled from the spec (Trainer): `Wtotal (c)`, the sum of `W (t, c)` over
all vocabulary terms. -/
noncomputable def Wtotal (vecs : List (List ℝ)) (labels : List Nat) (c : Nat) (V : Nat) : ℝ :=
  ((List.range V).map (W vecs labels c)).sum

/-- Modelled from the spec (Trainer): the Laplace-smoothed conditional
likelihood `P (t | c) = (W (t,c) + a) / (Wtotal (c) + a * V)`. -/
noncomputable def condProb (vecs : List (List ℝ)) (labels : List Nat)
    (V : Nat) (a : ℝ) (c : Nat) (i : Nat) : ℝ :=
  (W vecs labels c i + a) / (Wtotal vecs labels c V + a * V)

/-- Modelled from the spec (Trainer): the model built from training vectors and
labels; priors are class frequencies, and the table stores `log P (t | c)`. -/
noncomputable def trainOk (vecs : List (List ℝ)) (labels : List Nat)
    (V : Nat) (a : ℝ) : Model :=
  { classes := labels.dedup
    priors := labels.dedup.map (fun c => (labels.count c : ℝ) / labels.length)
    featLogProb := labels.dedup.map
      (fun c => (List.range V).map (fun i => Real.log (condProb vecs labels V a c i))) }

/-- Modelled from the spec (Trainer `train`): fails with `InputError` when
fewer than 2 distinct classes are present in the train labels. -/
noncomputable def train (vecs : List (List ℝ)) (labels : List Nat)
    (V : Nat) (a : ℝ) : Except Err Model :=
  if labels.dedup.length < 2 then .error .inputError
  else .ok (trainOk vecs labels V a)

/-- Largest element of a list, with a default for the empty list. -/
def maxD [LinearOrder α] (d : α) : List α → α
  | [] => d
  | x :: xs => max x (maxD d xs)

/-- Index of the first maximal element of a list (0 on the empty list). -/
def argmaxIdx [LinearOrder α] : List α → Nat
  | [] => 0
  | x :: xs => if maxD x xs ≤ x then 0 else argmaxIdx xs + 1

/-- Modelled from the spec (Predictor): per-class score,
`log (prior c) + sum over terms of vector[t] * logP (t | c)`. -/
noncomputable def score (m : Model) (v : List ℝ) (ci : Nat) : ℝ :=
  Real.log (m.priors.getD ci 0) +
    ((List.range (m.featLogProb.getD ci []).length).map
      (fun i => v.getD i 0 * (m.featLogProb.getD ci []).getD i 0)).sum

/-- The list of per-class scores, indexed like `Model.classes`. -/
noncomputable def scores (m : Model) (v : List ℝ) : List ℝ :=
  (List.range m.classes.length).map (score m v)

/-- Modelled from the spec (Predictor `predict`): the class with maximum score,
ties broken by the lower class index. -/
noncomputable def predict (m : Model) (v : List ℝ) : Nat :=
  m.classes.getD (argmaxIdx (scores m v)) 0

/-! ### Helper lemmas about the shuffle -/

/-- Moving the j-th element of a list to the front is a permutation. -/
theorem getD_cons_eraseIdx_perm : ∀ (l : List Nat) (j : Nat), j < l.length →
    (l.getD j 0 :: l.eraseIdx j).Perm l := by
  intro l
  induction l with
  | nil => intro j h; simp at h
  | cons a t ih =>
      intro j hj
      cases j with
      | zero => simp
      | succ j =>
          simp only [List.getD_cons_succ, List.eraseIdx_cons_succ]
          have h1 : (t.getD j 0 :: a :: t.eraseIdx j).Perm (a :: t.getD j 0 :: t.eraseIdx j) :=
            List.Perm.swap _ _ _
          refine h1.trans ?_
          exact List.Perm.cons a (ih j (by simpa using hj))

/-- The seeded shuffle permutes its input. -/
theorem shuffleGo_perm : ∀ (s : Nat) (l : List Nat), (shuffleGo s l).Perm l := by
  intro s l
  generalize hn : l.length = n
  induction n generalizing s l with
  | zero =>
      cases l with
      | nil => simp [shuffleGo]
      | cons a t => simp at hn
  | succ n ih =>
      cases l with
      | nil => simp at hn
      | cons a t =>
          rw [shuffleGo]
          have hj : s % (a :: t).length < (a :: t).length := Nat.mod_lt _ (by simp)
          have hlen : ((a :: t).eraseIdx (s % (a :: t).length)).length = n := by
            rw [List.length_eraseIdx]
            simp only [hj, if_true]
            omega
          have := ih (lcgNext s) _ hlen
          exact (List.Perm.cons _ this).trans (getD_cons_eraseIdx_perm _ _ hj)

/-! ### Claim theorems for the Splitter -/

/-- Claim C6: for every valid (n, ratio, seed) with n ≥ 2 and ratio in (0,1), `split`
returns train and test index lists that are disjoint and whose union is exactly
{0, ..., n-1}, and the returned partition is uniquely determined by the
arguments (determinism). -/
theorem split_partition (n : Nat) (ratio : ℚ) (seed : Nat)
    (hn : 2 ≤ n) (h0 : 0 < ratio) (h1 : ratio < 1) :
    ∃ tr te, split n ratio seed = .ok (tr, te) ∧
      (∀ i, i ∈ tr → i ∉ te) ∧
      (∀ i, (i ∈ tr ∨ i ∈ te) ↔ i < n) ∧
      (∀ tr2 te2, split n ratio seed = .ok (tr2, te2) → tr2 = tr ∧ te2 = te) := by
  have hperm : (permOf n seed).Perm (List.range n) := shuffleGo_perm _ _
  have hnd : (permOf n seed).Nodup := hperm.symm.nodup (List.nodup_range n)
  refine ⟨(permOf n seed).take (trainSize n ratio),
    (permOf n seed).drop (trainSize n ratio), ?_, ?_, ?_, ?_⟩
  · rw [split, if_pos ⟨hn, h0, h1⟩]
  · intro i hi hj
    exact (List.disjoint_take_drop hnd le_rfl) hi hj
  · intro i
    rw [← List.mem_append, List.take_append_drop]
    rw [hperm.mem_iff, List.mem_range]
  · intro tr2 te2 h
    rw [split, if_pos ⟨hn, h0, h1⟩] at h
    simp only [Except.ok.injEq, Prod.mk.injEq] at h
    exact ⟨h.1.symm, h.2.symm⟩

/-- Witness for C6 at n = 10, ratio = 3/10, seed = 42. -/
theorem split_partition_witness :
    (2 ≤ 10 ∧ 0 < (3 : ℚ)/10 ∧ (3 : ℚ)/10 < 1) ∧
    (∃ tr te, split 10 ((3 : ℚ)/10) 42 = .ok (tr, te) ∧
      (∀ i, i ∈ tr → i ∉ te) ∧
      (∀ i, (i ∈ tr ∨ i ∈ te) ↔ i < 10) ∧
      (∀ tr2 te2, split 10 ((3 : ℚ)/10) 42 = .ok (tr2, te2) → tr2 = tr ∧ te2 = te)) :=
  ⟨⟨by norm_num, by norm_num, by norm_num⟩,
    split_partition 10 ((3 : ℚ)/10) 42 (by norm_num) (by norm_num) (by norm_num)⟩

/-- Claim C9: for every valid (n, ratio, seed), `split` applies a seeded pseudorandom
permutation to {0, ..., n-1} and assigns exactly the first
`round (n * (1 - ratio))` positions of that permutation to the train set and
the remaining positions to the test set. -/
theorem split_first_positions (n : Nat) (ratio : ℚ) (seed : Nat)
    (hn : 2 ≤ n) (h0 : 0 < ratio) (h1 : ratio < 1) :
    ∃ p : List Nat, p.Perm (List.range n) ∧
      split n ratio seed =
        .ok (p.take (round ((n : ℚ) * (1 - ratio))).toNat,
             p.drop (round ((n : ℚ) * (1 - ratio))).toNat) :=
  ⟨permOf n seed, shuffleGo_perm _ _, by rw [split, if_pos ⟨hn, h0, h1⟩]; rfl⟩

/-- Witness for C9 at n = 10, ratio = 3/10, seed = 42. -/
theorem split_first_positions_witness :
    (2 ≤ 10 ∧ 0 < (3 : ℚ)/10 ∧ (3 : ℚ)/10 < 1) ∧
    (∃ p : List Nat, p.Perm (List.range 10) ∧
      split 10 ((3 : ℚ)/10) 42 =
        .ok (p.take (round ((10 : ℚ) * (1 - (3 : ℚ)/10))).toNat,
             p.drop (round ((10 : ℚ) * (1 - (3 : ℚ)/10))).toNat)) :=
  ⟨⟨by norm_num, by norm_num, by norm_num⟩,
    split_first_positions 10 ((3 : ℚ)/10) 42 (by norm_num) (by norm_num) (by norm_num)⟩

/-! ### Claim theorems for the input validation of the Trainer -/

/-- Claim C7: for every training input whose labels contain fewer than 2 distinct
classes, training fails with `InputError`. -/
theorem train_few_classes (vecs : List (List ℝ)) (labels : List Nat)
    (V : Nat) (a : ℝ) (h : labels.dedup.length < 2) :
    train vecs labels V a = .error .inputError := by
  rw [train, if_pos h]

/-- Witness for C7 on a single-class training set. -/
theorem train_few_classes_witness :
    ([1, 1, 1] : List Nat).dedup.length < 2 ∧
    train [[1], [1], [1]] [1, 1, 1] 1 1 = .error .inputError :=
  ⟨by decide, train_few_classes [[1], [1], [1]] [1, 1, 1] 1 1 (by decide)⟩

/-! ### Claim theorems for the idf of the Vectorizer -/

/-- Claim C2: for every corpus on which the Vectorizer is fitted and every vocabulary
term, the inverse document frequency equals
`ln ((1 + N) / (1 + df t)) + 1`, with N the number of training documents and
`df t` the number of training documents containing the term at least once. -/
theorem idf_formula (corpus : List Doc) (f : FittedVectorizer)
    (hf : fitVectorizer corpus = .ok f) (i : Nat) (hi : i < f.vocab.length) :
    idfOf f i =
      Real.log ((1 + corpus.length) / (1 + df corpus (f.vocab.getD i ""))) + 1 := by
  rw [fitVectorizer] at hf
  by_cases hc : corpus = [] ∨ vocabOf corpus = []
  · rw [if_pos hc] at hf
    exact absurd hf (by simp)
  · rw [if_neg hc] at hf
    cases hf
    have hi2 : i < (vocabOf corpus).length := by simpa using hi
    simp only [idfOf]
    rw [List.getD_eq_getElem _ _ (by simpa using hi2), List.getElem_map,
      List.getD_eq_getElem _ _ hi2]

/-- Witness for C2 on the two-document corpus [["good"], ["good", "bad"]]. -/
theorem idf_formula_witness :
    fitVectorizer [["good"], ["good", "bad"]] =
      .ok { vocab := ["good", "bad"], nDocs := 2, dfs := [2, 1] } ∧
    (0 : Nat) < (2 : Nat) ∧
    idfOf { vocab := ["good", "bad"], nDocs := 2, dfs := [2, 1] } 0 =
      Real.log ((1 + ([["good"], ["good", "bad"]] : List Doc).length) /
        (1 + df [["good"], ["good", "bad"]] ((["good", "bad"] : List String).getD 0 ""))) + 1 :=
  ⟨rfl, by decide,
    idf_formula [["good"], ["good", "bad"]] _ rfl 0 (by decide)⟩

/-! ### Claim theorems for the likelihood table of the Trainer -/

/-- Claim C3: for every training set, class and vocabulary term, the stored
table entry of the trained model is the logarithm of the smoothed conditional likelihood
`(W (t,c) + a) / (Wtotal (c) + a * V)`; in particular the model stores
`log P (t | c)` rather than `P (t | c)`. -/
theorem featLogProb_formula (vecs : List (List ℝ)) (labels : List Nat)
    (V : Nat) (a : ℝ) (m : Model) (hm : train vecs labels V a = .ok m)
    (ci i : Nat) (hci : ci < m.classes.length) (hi : i < V) :
    (m.featLogProb.getD ci []).getD i 0 =
      Real.log ((W vecs labels (m.classes.getD ci 0) i + a) /
        (Wtotal vecs labels (m.classes.getD ci 0) V + a * V)) := by
  rw [train] at hm
  by_cases hc : labels.dedup.length < 2
  · rw [if_pos hc] at hm
    exact absurd hm (by simp)
  · rw [if_neg hc] at hm
    cases hm
    have hci2 : ci < labels.dedup.length := by simpa [trainOk] using hci
    simp only [trainOk]
    have h1 : (List.map
        (fun c => (List.range V).map (fun i => Real.log (condProb vecs labels V a c i)))
        labels.dedup).getD ci []
        = (List.range V).map
            (fun i => Real.log (condProb vecs labels V a (labels.dedup.getD ci 0) i)) := by
      rw [List.getD_eq_getElem _ _ (by simpa using hci2), List.getElem_map,
        List.getD_eq_getElem _ _ hci2]
    rw [h1]
    rw [List.getD_eq_getElem _ _ (by simpa using hi), List.getElem_map, List.getElem_range,
      condProb]

/-- Witness for C3 on the training set vecs = [[1], [0]], labels = [0, 1],
V = 1, a = 1. -/
theorem featLogProb_formula_witness :
    train [[1], [0]] [0, 1] 1 1 = .ok (trainOk [[1], [0]] [0, 1] 1 1) ∧
    (0 : Nat) < (trainOk [[1], [0]] [0, 1] 1 1).classes.length ∧ (0 : Nat) < 1 ∧
    ((trainOk [[1], [0]] [0, 1] 1 1).featLogProb.getD 0 []).getD 0 0 =
      Real.log ((W [[1], [0]] [0, 1] ((trainOk [[1], [0]] [0, 1] 1 1).classes.getD 0 0) 0 + 1) /
        (Wtotal [[1], [0]] [0, 1] ((trainOk [[1], [0]] [0, 1] 1 1).classes.getD 0 0) 1
          + 1 * ((1 : ℕ) : ℝ))) :=
  ⟨rfl, by decide, by decide,
    featLogProb_formula [[1], [0]] [0, 1] 1 1 _ rfl 0 0 (by decide) (by decide)⟩

/-! ### Helper lemmas about maxD and argmaxIdx -/

/-- Every member of a list is bounded by its maximum. -/
theorem le_maxD_of_mem [LinearOrder α] {d y : α} {l : List α} (h : y ∈ l) : y ≤ maxD d l := by
  induction l with
  | nil => simp at h
  | cons x xs ih =>
      rcases List.mem_cons.mp h with h | h
      · subst h; exact le_max_left _ _
      · exact le_trans (ih h) (le_max_right _ _)

/-- The maximum is bounded by any common upper bound. -/
theorem maxD_le [LinearOrder α] {d c : α} {l : List α}
    (hd : d ≤ c) (h : ∀ y ∈ l, y ≤ c) : maxD d l ≤ c := by
  induction l with
  | nil => simpa [maxD]
  | cons x xs ih =>
      refine max_le (h x (by simp)) (ih ?_)
      intro y hy
      exact h y (by simp [hy])

/-- The index of the first maximum is in range on a nonempty list. -/
theorem argmaxIdx_lt_length [LinearOrder α] (l : List α) (h : l ≠ []) :
    argmaxIdx l < l.length := by
  induction l with
  | nil => simp at h
  | cons x xs ih =>
      rw [argmaxIdx]
      by_cases hc : maxD x xs ≤ x
      · rw [if_pos hc]; simp
      · rw [if_neg hc]
        have hxs : xs ≠ [] := by
          intro he
          subst he
          exact hc (le_refl x)
        have := ih hxs
        simpa using Nat.succ_lt_succ this

/-- Every entry of a list is at most the entry at `argmaxIdx`. -/
theorem getD_le_getD_argmaxIdx [LinearOrder α] (l : List α) (d0 : α) :
    ∀ k, k < l.length → l.getD k d0 ≤ l.getD (argmaxIdx l) d0 := by
  induction l with
  | nil => intro k hk; simp at hk
  | cons x xs ih =>
      intro k hk
      rw [argmaxIdx]
      by_cases hc : maxD x xs ≤ x
      · rw [if_pos hc]
        cases k with
        | zero => simp
        | succ j =>
            simp only [List.getD_cons_succ, List.getD_cons_zero]
            have hj : j < xs.length := by simpa using hk
            have hmem : xs.getD j d0 ∈ xs := by
              rw [List.getD_eq_getElem _ _ hj]
              exact List.getElem_mem hj
            exact le_trans (le_maxD_of_mem hmem) hc
      · rw [if_neg hc]
        have hxs : xs ≠ [] := by
          intro he; subst he; exact hc (le_refl x)
        have hxc : x < xs.getD (argmaxIdx xs) d0 := by
          have hall : ∀ y ∈ xs, y ≤ xs.getD (argmaxIdx xs) d0 := by
            intro y hy
            obtain ⟨j, hj, rfl⟩ := List.getElem_of_mem hy
            rw [← List.getD_eq_getElem _ d0 hj]
            exact ih j hj
          have hmx : maxD x xs ≤ max x (xs.getD (argmaxIdx xs) d0) :=
            maxD_le (le_max_left _ _) (fun y hy => le_trans (hall y hy) (le_max_right _ _))
          by_contra hle
          push_neg at hle
          rw [max_eq_left hle] at hmx
          exact hc hmx
        cases k with
        | zero => simpa using le_of_lt hxc
        | succ j =>
            simp only [List.getD_cons_succ]
            exact ih j (by simpa using hk)

/-- Entries strictly before `argmaxIdx` are strictly below the maximum:
the first maximum wins ties. -/
theorem getD_lt_getD_argmaxIdx [LinearOrder α] (l : List α) (d0 : α) :
    ∀ k, k < argmaxIdx l → l.getD k d0 < l.getD (argmaxIdx l) d0 := by
  induction l with
  | nil => intro k hk; simp [argmaxIdx] at hk
  | cons x xs ih =>
      intro k hk
      rw [argmaxIdx] at hk ⊢
      by_cases hc : maxD x xs ≤ x
      · rw [if_pos hc] at hk
        simp at hk
      · rw [if_neg hc] at hk ⊢
        have hxs : xs ≠ [] := by
          intro he; subst he; exact hc (le_refl x)
        have hxc : x < xs.getD (argmaxIdx xs) d0 := by
          have hall : ∀ y ∈ xs, y ≤ xs.getD (argmaxIdx xs) d0 := by
            intro y hy
            obtain ⟨j, hj, rfl⟩ := List.getElem_of_mem hy
            rw [← List.getD_eq_getElem _ d0 hj]
            exact getD_le_getD_argmaxIdx xs d0 j hj
          have hmx : maxD x xs ≤ max x (xs.getD (argmaxIdx xs) d0) :=
            maxD_le (le_max_left _ _) (fun y hy => le_trans (hall y hy) (le_max_right _ _))
          by_contra hle
          push_neg at hle
          rw [max_eq_left hle] at hmx
          exact hc hmx
        cases k with
        | zero => simpa using hxc
        | succ j =>
            simp only [List.getD_cons_succ]
            exact ih j (by simpa using hk)

/-- A strict maximum is where `argmaxIdx` points. -/
theorem argmaxIdx_eq_of_strict_max [LinearOrder α] (l : List α) (d0 : α) (i : Nat)
    (hi : i < l.length)
    (h : ∀ k, k < l.length → k ≠ i → l.getD k d0 < l.getD i d0) : argmaxIdx l = i := by
  by_contra hne
  have hnil : l ≠ [] := by
    intro he; subst he; simp at hi
  have h1 : l.getD i d0 ≤ l.getD (argmaxIdx l) d0 :=
    getD_le_getD_argmaxIdx l d0 i hi
  have h2 : argmaxIdx l < l.length := argmaxIdx_lt_length l hnil
  have h3 := h (argmaxIdx l) h2 hne
  exact absurd h1 (not_le.mpr h3)

/-- The k-th entry of the score list is the k-th class score. -/
theorem scores_getD (m : Model) (v : List ℝ) (k : Nat) (hk : k < m.classes.length) :
    (scores m v).getD k 0 = score m v k := by
  rw [scores, List.getD_eq_getElem _ _ (by simpa using hk), List.getElem_map,
    List.getElem_range]

/-! ### Claim theorems for the Predictor -/

/-- Claim C4: for every model with at least one class and every vector, `predict`
returns the class at the index whose score is maximal, and every class index
strictly before it has a strictly smaller score (ties go to the lower class
index). -/
theorem predict_argmax (m : Model) (v : List ℝ) (h : m.classes ≠ []) :
    ∃ ci, ci < m.classes.length ∧ predict m v = m.classes.getD ci 0 ∧
      (∀ k, k < m.classes.length → score m v k ≤ score m v ci) ∧
      (∀ k, k < ci → score m v k < score m v ci) := by
  have hlen : (scores m v).length = m.classes.length := by
    rw [scores, List.length_map, List.length_range]
  have hne : scores m v ≠ [] := by
    intro he
    exact h (List.length_eq_zero.mp (by rw [← hlen, he]; rfl))
  refine ⟨argmaxIdx (scores m v), ?_, rfl, ?_, ?_⟩
  · rw [← hlen]
    exact argmaxIdx_lt_length _ hne
  · intro k hk
    have harg : argmaxIdx (scores m v) < m.classes.length := by
      rw [← hlen]; exact argmaxIdx_lt_length _ hne
    have := getD_le_getD_argmaxIdx (scores m v) 0 k (by rwa [hlen])
    rwa [scores_getD m v k hk, scores_getD m v _ harg] at this
  · intro k hk
    have harg : argmaxIdx (scores m v) < m.classes.length := by
      rw [← hlen]; exact argmaxIdx_lt_length _ hne
    have hk2 : k < m.classes.length := lt_trans hk harg
    have := getD_lt_getD_argmaxIdx (scores m v) 0 k hk
    rwa [scores_getD m v k hk2, scores_getD m v _ harg] at this

/-- A concrete two-class model used to witness the Predictor theorems. -/
def demoModel : Model :=
  { classes := [0, 1], priors := [1, 1], featLogProb := [[0], [0]] }

/-- Witness for C4 on a concrete two-class model and vector. -/
theorem predict_argmax_witness :
    demoModel.classes ≠ [] ∧
    (∃ ci, ci < demoModel.classes.length ∧
      predict demoModel [1] = demoModel.classes.getD ci 0 ∧
      (∀ k, k < demoModel.classes.length →
        score demoModel [1] k ≤ score demoModel [1] ci) ∧
      (∀ k, k < ci → score demoModel [1] k < score demoModel [1] ci)) :=
  ⟨by decide, predict_argmax demoModel [1] (by decide)⟩

/-- Entries of an all-zero vector are zero at every index. -/
theorem getD_replicate_zero (n i : Nat) : (List.replicate n (0 : ℝ)).getD i 0 = 0 := by
  by_cases h : i < n
  · rw [List.getD_eq_getElem _ _ (by simpa using h)]
    simp
  · rw [List.getD_eq_default _ _ (by simpa using not_lt.mp h)]

/-- On an all-zero vector every class score reduces to the log prior. -/
theorem score_zero_vec (m : Model) (Vz : Nat) (ci : Nat) :
    score m (List.replicate Vz 0) ci = Real.log (m.priors.getD ci 0) := by
  rw [score]
  have hz : ((List.range (m.featLogProb.getD ci []).length).map
      (fun i => (List.replicate Vz (0 : ℝ)).getD i 0 *
        (m.featLogProb.getD ci []).getD i 0)).sum = 0 := by
    apply List.sum_eq_zero
    intro x hx
    obtain ⟨i, _, rfl⟩ := List.mem_map.mp hx
    rw [getD_replicate_zero]
    ring
  rw [hz, add_zero]

/-- Claim C8: for every trained model, predicting on an all-zero vector returns the
class decided by the priors alone: when the training labels have a strict
majority class, that class is predicted. -/
theorem predict_zero_majority (vecs : List (List ℝ)) (labels : List Nat)
    (V Vz : Nat) (a : ℝ) (m : Model) (hm : train vecs labels V a = .ok m)
    (cstar : Nat) (hmem : cstar ∈ labels)
    (hmaj : ∀ c ∈ labels, c ≠ cstar → labels.count c < labels.count cstar) :
    predict m (List.replicate Vz 0) = cstar := by
  rw [train] at hm
  by_cases hc : labels.dedup.length < 2
  · rw [if_pos hc] at hm
    exact absurd hm (by simp)
  · rw [if_neg hc] at hm
    cases hm
    have hmemD : cstar ∈ labels.dedup := List.mem_dedup.mpr hmem
    have hilt : List.indexOf cstar labels.dedup < labels.dedup.length :=
      List.indexOf_lt_length.mpr hmemD
    have hget : labels.dedup.getD (List.indexOf cstar labels.dedup) 0 = cstar := by
      rw [List.getD_eq_getElem _ _ hilt]
      exact List.getElem_indexOf hilt
    have hlenpos : 0 < labels.length := List.length_pos.mpr (List.ne_nil_of_mem hmem)
    have hpri : ∀ k, k < labels.dedup.length →
        (trainOk vecs labels V a).priors.getD k 0 =
          (labels.count (labels.dedup.getD k 0) : ℝ) / labels.length := by
      intro k hk
      simp only [trainOk]
      rw [List.getD_eq_getElem _ _ (by simpa using hk), List.getElem_map,
        List.getD_eq_getElem _ _ hk]
    have hslen : (scores (trainOk vecs labels V a) (List.replicate Vz 0)).length =
        labels.dedup.length := by
      simp [scores, trainOk]
    have hstrict : ∀ k, k < (scores (trainOk vecs labels V a) (List.replicate Vz 0)).length →
        k ≠ List.indexOf cstar labels.dedup →
        (scores (trainOk vecs labels V a) (List.replicate Vz 0)).getD k 0 <
          (scores (trainOk vecs labels V a) (List.replicate Vz 0)).getD
            (List.indexOf cstar labels.dedup) 0 := by
      intro k hk hkne
      have hk2 : k < labels.dedup.length := by rwa [hslen] at hk
      rw [scores_getD _ _ k (by simpa [trainOk] using hk2),
        scores_getD _ _ _ (by simpa [trainOk] using hilt),
        score_zero_vec, score_zero_vec, hpri k hk2, hpri _ hilt, hget]
      have hckmem : labels.dedup.getD k 0 ∈ labels := by
        rw [List.getD_eq_getElem _ _ hk2]
        exact List.mem_dedup.mp (List.getElem_mem hk2)
      have hckne : labels.dedup.getD k 0 ≠ cstar := by
        intro he
        apply hkne
        have hinj := @List.Nodup.getElem_inj_iff _ labels.dedup
          (List.nodup_dedup labels) k hk2 (List.indexOf cstar labels.dedup) hilt
        apply hinj.mp
        rw [← List.getD_eq_getElem _ 0 hk2, ← List.getD_eq_getElem _ 0 hilt, hget, he]
      have hcnt : labels.count (labels.dedup.getD k 0) < labels.count cstar :=
        hmaj _ hckmem hckne
      have hpos : (0 : ℝ) < (labels.count (labels.dedup.getD k 0) : ℝ) / labels.length := by
        apply div_pos
        · exact_mod_cast List.count_pos_iff.mpr hckmem
        · exact_mod_cast hlenpos
      apply Real.log_lt_log hpos
      have hcnt2 : (labels.count (labels.dedup.getD k 0) : ℝ) < (labels.count cstar : ℝ) := by
        exact_mod_cast hcnt
      gcongr
    have harg : argmaxIdx (scores (trainOk vecs labels V a) (List.replicate Vz 0)) =
        List.indexOf cstar labels.dedup :=
      argmaxIdx_eq_of_strict_max _ 0 _ (by rwa [hslen]) hstrict
    rw [predict, harg]
    simpa only [trainOk] using hget

/-- Witness for C8: labels [0, 0, 1] have strict majority class 0, and the
zero vector predicts 0. -/
theorem predict_zero_majority_witness :
    train [[1], [1], [0]] [0, 0, 1] 1 1 = .ok (trainOk [[1], [1], [0]] [0, 0, 1] 1 1) ∧
    0 ∈ ([0, 0, 1] : List Nat) ∧
    (∀ c ∈ ([0, 0, 1] : List Nat), c ≠ 0 →
      ([0, 0, 1] : List Nat).count c < ([0, 0, 1] : List Nat).count 0) ∧
    predict (trainOk [[1], [1], [0]] [0, 0, 1] 1 1) (List.replicate 1 0) = 0 :=
  ⟨rfl, by decide, by decide,
    predict_zero_majority [[1], [1], [0]] [0, 0, 1] 1 1 1 _ rfl 0 (by decide) (by decide)⟩

/-- Dividing every summand by a constant divides the sum. -/
theorem list_sum_map_div {α : Type} (l : List α) (f : α → ℝ) (c : ℝ) :
    (l.map (fun x => f x / c)).sum = (l.map f).sum / c := by
  induction l with
  | nil => simp
  | cons x xs ih => simp [ih, add_div]

/-! ### Claim theorems for the numerical invariants of training -/

/-- Claim C10: for every valid training set, the priors of the trained model sum
to 1, and for every class the smoothed conditional probabilities recovered
from the stored log table sum to 1 over the vocabulary (exactly, in the
real-number model of the computation). -/
theorem priors_and_cond_probs_sum_one (vecs : List (List ℝ)) (labels : List Nat)
    (V : Nat) (m : Model) (hm : train vecs labels V 1 = .ok m)
    (hV : 1 ≤ V) (hnn : ∀ w ∈ vecs, ∀ x ∈ w, (0 : ℝ) ≤ x) :
    m.priors.sum = 1 ∧
    ∀ ci, ci < m.classes.length → ((m.featLogProb.getD ci []).map Real.exp).sum = 1 := by
  rw [train] at hm
  by_cases hc : labels.dedup.length < 2
  · rw [if_pos hc] at hm
    exact absurd hm (by simp)
  · rw [if_neg hc] at hm
    cases hm
    have hlabne : labels ≠ [] := by
      intro he
      rw [he] at hc
      simp at hc
    have hlenpos : (0 : ℝ) < labels.length := by
      exact_mod_cast List.length_pos.mpr hlabne
    constructor
    · show (labels.dedup.map (fun c => (labels.count c : ℝ) / labels.length)).sum = 1
      rw [list_sum_map_div labels.dedup (fun c => (labels.count c : ℝ)) (labels.length : ℝ)]
      have hsum : (labels.dedup.map (fun c => (labels.count c : ℝ))).sum = (labels.length : ℝ) := by
        calc (labels.dedup.map (fun c => (labels.count c : ℝ))).sum
            = ((labels.dedup.map (fun c => labels.count c)).map (fun n : Nat => (n : ℝ))).sum := by
              rw [List.map_map]
              rfl
          _ = ((labels.dedup.map (fun c => labels.count c)).sum : ℝ) := by
              rw [← Nat.cast_list_sum]
          _ = (labels.length : ℝ) := by
              rw [List.sum_map_count_dedup_eq_length]
      rw [hsum, div_self (ne_of_gt hlenpos)]
    · intro ci hci
      have hci2 : ci < labels.dedup.length := by simpa [trainOk] using hci
      have hrow : (trainOk vecs labels V 1).featLogProb.getD ci [] =
          (List.range V).map
            (fun i => Real.log (condProb vecs labels V 1 (labels.dedup.getD ci 0) i)) := by
        simp only [trainOk]
        rw [List.getD_eq_getElem _ _ (by simpa using hci2), List.getElem_map,
          List.getD_eq_getElem _ _ hci2]
      rw [hrow, List.map_map]
      have hW : ∀ i, 0 ≤ W vecs labels (labels.dedup.getD ci 0) i := by
        intro i
        apply List.sum_nonneg
        intro x hx
        obtain ⟨p, hp, rfl⟩ := List.mem_map.mp hx
        have hp2 : p ∈ vecs.zip labels := List.mem_of_mem_filter hp
        have hv : p.1 ∈ vecs := (List.of_mem_zip hp2).1
        by_cases hl : i < p.1.length
        · rw [List.getD_eq_getElem _ _ hl]
          exact hnn p.1 hv _ (List.getElem_mem hl)
        · rw [List.getD_eq_default _ _ (not_lt.mp hl)]
      have hWt : 0 ≤ Wtotal vecs labels (labels.dedup.getD ci 0) V := by
        apply List.sum_nonneg
        intro x hx
        obtain ⟨i, _, rfl⟩ := List.mem_map.mp hx
        exact hW i
      have hV2 : (1 : ℝ) ≤ (V : ℝ) := by exact_mod_cast hV
      have hdenpos : 0 < Wtotal vecs labels (labels.dedup.getD ci 0) V + 1 * (V : ℝ) := by
        nlinarith
      have hcp : ∀ i, 0 < condProb vecs labels V 1 (labels.dedup.getD ci 0) i := by
        intro i
        apply div_pos
        · have := hW i
          linarith
        · exact hdenpos
      have hexp : (List.range V).map
          (Real.exp ∘ fun i => Real.log (condProb vecs labels V 1 (labels.dedup.getD ci 0) i)) =
          (List.range V).map (fun i => condProb vecs labels V 1 (labels.dedup.getD ci 0) i) := by
        apply List.map_congr_left
        intro i _
        simp only [Function.comp]
        exact Real.exp_log (hcp i)
      rw [hexp]
      simp only [condProb]
      rw [list_sum_map_div (List.range V)
        (fun i => W vecs labels (labels.dedup.getD ci 0) i + 1)
        (Wtotal vecs labels (labels.dedup.getD ci 0) V + 1 * (V : ℝ))]
      rw [List.sum_map_add]
      rw [List.map_const', List.sum_replicate, List.length_range]
      have hWtdef : ((List.range V).map
          (fun i => W vecs labels (labels.dedup.getD ci 0) i)).sum =
          Wtotal vecs labels (labels.dedup.getD ci 0) V := rfl
      rw [hWtdef]
      rw [nsmul_eq_mul, mul_one, one_mul]
      rw [one_mul] at hdenpos
      exact div_self (ne_of_gt hdenpos)

/-- Witness for C10 on the training set vecs = [[1], [0]], labels = [0, 1],
V = 1. -/
theorem priors_and_cond_probs_sum_one_witness :
    train [[1], [0]] [0, 1] 1 1 = .ok (trainOk [[1], [0]] [0, 1] 1 1) ∧
    (1 : Nat) ≤ 1 ∧
    (∀ w ∈ ([[1], [0]] : List (List ℝ)), ∀ x ∈ w, (0 : ℝ) ≤ x) ∧
    ((trainOk [[1], [0]] [0, 1] 1 1).priors.sum = 1 ∧
      ∀ ci, ci < (trainOk [[1], [0]] [0, 1] 1 1).classes.length →
        (((trainOk [[1], [0]] [0, 1] 1 1).featLogProb.getD ci []).map Real.exp).sum = 1) :=
  ⟨rfl, by decide, by norm_num,
    priors_and_cond_probs_sum_one [[1], [0]] [0, 1] 1 _ rfl (by decide) (by norm_num)⟩

/-- A sum of nonnegative reals with one positive member is positive. -/
theorem list_sum_pos_of_mem (l : List ℝ) (hnn : ∀ x ∈ l, 0 ≤ x)
    {x0 : ℝ} (hx0 : x0 ∈ l) (hpos : 0 < x0) : 0 < l.sum := by
  induction l with
  | nil => simp at hx0
  | cons y ys ih =>
      rcases List.mem_cons.mp hx0 with h | h
      · subst h
        have h2 : 0 ≤ ys.sum := List.sum_nonneg (fun z hz => hnn z (by simp [hz]))
        simp only [List.sum_cons]
        linarith
      · have h0y : 0 ≤ y := hnn y (by simp)
        have h2 := ih (fun z hz => hnn z (by simp [hz])) h
        simp only [List.sum_cons]
        linarith

/-- Scaling every entry of a vector by 1/c scales its Euclidean norm by 1/c,
for positive c. -/
theorem l2norm_map_div (w : List ℝ) (c : ℝ) (hc : 0 < c) :
    l2norm (w.map (fun x => x / c)) = l2norm w / c := by
  rw [l2norm, l2norm, List.map_map]
  have hfun : ((fun x => x * x) ∘ fun x : ℝ => x / c) = fun x => (x * x) / (c * c) := by
    funext x
    simp only [Function.comp]
    field_simp
  rw [hfun, list_sum_map_div w (fun x => x * x) (c * c)]
  have hnn : 0 ≤ (w.map (fun x => x * x)).sum := by
    apply List.sum_nonneg
    intro z hz
    obtain ⟨x, _, rfl⟩ := List.mem_map.mp hz
    exact mul_self_nonneg x
  rw [Real.sqrt_div hnn, Real.sqrt_mul_self hc.le]

/-- On a fitted vectorizer every inverse document frequency is at least 1,
since every document frequency is at most the corpus size. -/
theorem one_le_idfOf (corpus : List Doc) (f : FittedVectorizer)
    (hf : fitVectorizer corpus = .ok f) (i : Nat) (hi : i < f.vocab.length) :
    1 ≤ idfOf f i := by
  rw [fitVectorizer] at hf
  by_cases hc : corpus = [] ∨ vocabOf corpus = []
  · rw [if_pos hc] at hf
    exact absurd hf (by simp)
  · rw [if_neg hc] at hf
    cases hf
    have hi2 : i < (vocabOf corpus).length := by simpa using hi
    simp only [idfOf]
    have hdf : ((vocabOf corpus).map (df corpus)).getD i 0 ≤ corpus.length := by
      rw [List.getD_eq_getElem _ _ (by simpa using hi2), List.getElem_map]
      exact List.length_filter_le _ _
    have hdenpos : (0 : ℝ) < 1 + (((vocabOf corpus).map (df corpus)).getD i 0 : ℝ) := by
      positivity
    have harg : (1 : ℝ) ≤ (1 + (corpus.length : ℝ)) /
        (1 + (((vocabOf corpus).map (df corpus)).getD i 0 : ℝ)) := by
      rw [one_le_div hdenpos]
      have : (((vocabOf corpus).map (df corpus)).getD i 0 : ℝ) ≤ (corpus.length : ℝ) := by
        exact_mod_cast hdf
      linarith
    have := Real.log_nonneg harg
    linarith

/-! ### Claim theorems for the normalization step of the Vectorizer -/

/-- Claim C5: for every document of the corpus on which the Vectorizer was fitted,
the transformed vector has Euclidean norm 1 whenever at least one vocabulary
term occurs in the document, and is the all-zero vector otherwise (exactly, in
the real-number model of the computation). -/
theorem transform_norm_one_or_zero (corpus : List Doc) (f : FittedVectorizer)
    (hf : fitVectorizer corpus = .ok f) (d : Doc) (_hd : d ∈ corpus) :
    ((∃ t ∈ f.vocab, t ∈ d) → l2norm (transform1 f d) = 1) ∧
    ((¬ ∃ t ∈ f.vocab, t ∈ d) → transform1 f d = List.replicate f.vocab.length 0) := by
  have hidf : ∀ i, i < f.vocab.length → 1 ≤ idfOf f i := fun i hi =>
    one_le_idfOf corpus f hf i hi
  have hnnw : ∀ x ∈ rawWeights f d, 0 ≤ x := by
    intro x hx
    obtain ⟨i, hir, rfl⟩ := List.mem_map.mp hx
    have hi : i < f.vocab.length := List.mem_range.mp hir
    have h1 : (0 : ℝ) ≤ (d.count (f.vocab.getD i "") : ℝ) := by positivity
    have h2 : (0 : ℝ) ≤ idfOf f i := le_trans zero_le_one (hidf i hi)
    exact mul_nonneg h1 h2
  constructor
  · rintro ⟨t, ht, htd⟩
    obtain ⟨i0, hi0, hti⟩ := List.getElem_of_mem ht
    have hcnt : 0 < d.count (f.vocab.getD i0 "") := by
      rw [List.getD_eq_getElem _ _ hi0, hti]
      exact List.count_pos_iff.mpr htd
    have hentry : 0 < (d.count (f.vocab.getD i0 "") : ℝ) * idfOf f i0 := by
      apply mul_pos
      · exact_mod_cast hcnt
      · exact lt_of_lt_of_le zero_lt_one (hidf i0 hi0)
    have hmem : (d.count (f.vocab.getD i0 "") : ℝ) * idfOf f i0 ∈ rawWeights f d := by
      rw [rawWeights]
      exact List.mem_map.mpr ⟨i0, List.mem_range.mpr hi0, rfl⟩
    have hsq : 0 < ((rawWeights f d).map (fun x => x * x)).sum := by
      apply list_sum_pos_of_mem
      · intro z hz
        obtain ⟨x, _, rfl⟩ := List.mem_map.mp hz
        exact mul_self_nonneg x
      · exact List.mem_map.mpr ⟨_, hmem, rfl⟩
      · exact mul_pos hentry hentry
    have hnorm : 0 < l2norm (rawWeights f d) := by
      rw [l2norm]
      exact Real.sqrt_pos.mpr hsq
    rw [transform1]
    simp only [if_neg (ne_of_gt hnorm)]
    rw [l2norm_map_div _ _ hnorm]
    exact div_self (ne_of_gt hnorm)
  · intro hno
    have hcnt : ∀ i, i < f.vocab.length → d.count (f.vocab.getD i "") = 0 := by
      intro i hi
      apply List.count_eq_zero.mpr
      intro hmem
      apply hno
      refine ⟨f.vocab.getD i "", ?_, hmem⟩
      rw [List.getD_eq_getElem _ _ hi]
      exact List.getElem_mem hi
    have hw : rawWeights f d = List.replicate f.vocab.length 0 := by
      rw [rawWeights]
      have hz : ∀ b ∈ (List.range f.vocab.length).map
          (fun i => (d.count (f.vocab.getD i "") : ℝ) * idfOf f i), b = 0 := by
        intro b hb
        obtain ⟨i, hir, rfl⟩ := List.mem_map.mp hb
        rw [hcnt i (List.mem_range.mp hir)]
        simp
      have h1 := List.eq_replicate_of_mem hz
      rwa [List.length_map, List.length_range] at h1
    have hn0 : l2norm (rawWeights f d) = 0 := by
      rw [hw, l2norm, List.map_replicate]
      simp
    rw [transform1]
    simp only [if_pos hn0]
    exact hw

/-- The fitted vectorizer of the corpus [["good"], ["bad"]], used as a
concrete witness input. -/
def demoFitted : FittedVectorizer :=
  { vocab := ["good", "bad"], nDocs := 2, dfs := [1, 1] }

/-- Witness for C5 on the corpus [["good"], ["bad"]] and its document
["good"]. -/
theorem transform_norm_one_or_zero_witness :
    fitVectorizer [["good"], ["bad"]] = .ok demoFitted ∧
    (["good"] : Doc) ∈ ([["good"], ["bad"]] : List Doc) ∧
    (((∃ t ∈ demoFitted.vocab, t ∈ (["good"] : Doc)) →
      l2norm (transform1 demoFitted ["good"]) = 1) ∧
    ((¬ ∃ t ∈ demoFitted.vocab, t ∈ (["good"] : Doc)) →
      transform1 demoFitted ["good"] = List.replicate demoFitted.vocab.length 0)) :=
  ⟨rfl, by simp,
    transform_norm_one_or_zero [["good"], ["bad"]] demoFitted rfl ["good"] (by simp)⟩

end SentimentPipeline
